import Mathlib

/-!
# Verification of the LWC template-compiler codegen / scope-hoisting subsystem

Shallow embedding of the code generator's scope tree, the scope-flattening
pass (`dumpScope`), the property binder (`Scope.getPropName`), the render
primitive emitter (`_renderApiCall`), the conditional lowering
(`applyInlineIf`), and the render-function assembly
(`generateTemplateFunction`).

Sources embedded:
* `src/unnamed/part_005` — the `Scope` class, `dumpScope`, the memoized
  `aggregatedPropNamesUsedInChildScopes` set, `Scope.getPropName`;
* `src/unnamed/part_001` — `NodeRefProxy` (mutable indirection cell with
  `swap`) and the module-level `scopes` counter;
* `src/packages/@lwc/template-compiler/src/codegen/codegen.ts` —
  `CodeGen`, `RENDER_APIS`, `_renderApiCall`, `applyInlineIf`,
  `generateTemplateFunction`;
* `src/packages/@lwc/template-compiler/src/codegen/scope.ts` — the
  module-level `usedProps` map and its `getPropName` /
  `getUsedComponentProperties`.

Mutable state is embedded by explicit state passing: `NodeRefProxy` cells
become a store `Nat → CellExpr` updated by `swapCell`; the statement lists
that the source mutates with `unshift` / `push` become pure list results.
-/

namespace LwcSpec

/-- Expressions that a property-reference cell (`NodeRefProxy`) can hold:
either the original component-instance member access `$cmp.<name>` or a
plain identifier (a generated alias). -/
inductive CellExpr where
  | memberInstance (name : String)
  | ident (s : String)
deriving DecidableEq, Repr

/-- The mutable cell store: `NodeRefProxy` instances, addressed by cell id.
`swap` mutates a cell's target. -/
def Store := Nat → CellExpr

/-- `NodeRefProxy.swap(newTarget)` on the cell `cid`. -/
def swapCell (st : Store) (cid : Nat) (e : CellExpr) : Store :=
  fun c => if c = cid then e else st c

/-- `ComponentPropsUsageData` of `part_005`: `{ name, gen, usage, instances }`.
The `usage` NodeRefProxy is represented by its cell id into the store. -/
structure PropUsage where
  name : String
  gen : String
  cellId : Nat
  instances : Nat
deriving DecidableEq, Repr

/-- Statements of the generated render function body, as far as the claims
need to distinguish them.  `hoistDestr` is the `const { name: alias, ... } =
$cmp` statement emitted by `dumpScope`; `helperDecl` is a child scope's
generated helper function declaration (carrying its processed body);
`apiDestr`, `instDestr`, `slotDestr`, `ctxDestr` and `ret` are the
statements assembled by `generateTemplateFunction`; `other` stands for
pre-existing statements (e.g. return statements already inside a helper
body before flattening). -/
inductive Stmt where
  | apiDestr (pairs : List (String × String))
  | instDestr (pairs : List (String × String))
  | hoistDestr (pairs : List (String × String))
  | helperDecl (id : Nat) (body : List Stmt)
  | slotDestr (entries : List (String × Option String))
  | ctxDestr (ids : List String)
  | ret
  | other (tag : Nat)

/-- The scope tree of `part_005`: id, `usedProps` (a Map in insertion
order), `childScopes` in creation order, and the statements already inside
the scope's `mainFn` body (`mainFn.body.body`) before flattening. -/
inductive Scope where
  | node (id : Nat) (usedProps : List PropUsage) (childScopes : List Scope)
      (fnBody : List Stmt)

def Scope.sid : Scope → Nat
  | .node i _ _ _ => i

def Scope.usedProps : Scope → List PropUsage
  | .node _ ps _ _ => ps

def Scope.childScopes : Scope → List Scope
  | .node _ _ cs _ => cs

def Scope.fnBody : Scope → List Stmt
  | .node _ _ _ b => b

/-- Association-list lookup, modelling `Map.get` on a Map kept in insertion
order. -/
def lookupA (m : List (String × String)) (n : String) : Option String :=
  match m with
  | [] => none
  | (k, v) :: rest => if k = n then some v else lookupA rest n

mutual
/-- `Scope.aggregatedPropNamesUsedInChildScopes` of `part_005` (membership
view of the memoized Set): for each child scope, the child's `usedProps`
names plus the child's own aggregated set. -/
def aggOf : Scope → List String
  | .node _ _ cs _ => aggChildren cs

def aggChildren : List Scope → List String
  | [] => []
  | c :: cs => c.usedProps.map (·.name) ++ aggOf c ++ aggChildren cs
end

/-- The `for (const [name, propData] of scope.usedProps)` loop of
`dumpScope` (`part_005` lines 23–37), restricted to its pure output: the
`variablesInThisScope` list of `(propertyName, generatedAlias)` pairs (which
is also exactly what the loop adds to `nextScope`, since it performs
`nextScope.set(propData.name, propData.gen)` and
`variablesInThisScope.push([propData.name, propData.gen])` together). -/
def hoistedPairs (scopeVars : List (String × String)) (agg : List String) :
    List PropUsage → List (String × String)
  | [] => []
  | p :: ps =>
    match lookupA scopeVars p.name with
    | some _ => hoistedPairs scopeVars agg ps
    | none =>
      if p.instances > 1 ∨ p.name ∈ agg then
        (p.name, p.gen) :: hoistedPairs scopeVars agg ps
      else
        hoistedPairs scopeVars agg ps

/-- The same loop's effect on the `NodeRefProxy` cells:
`propData.usage.swap(t.identifier(...))` for the inherited-alias branch and
for the materialize branch; no swap otherwise. -/
def processStore (scopeVars : List (String × String)) (agg : List String)
    (st : Store) : List PropUsage → Store
  | [] => st
  | p :: ps =>
    match lookupA scopeVars p.name with
    | some g => processStore scopeVars agg (swapCell st p.cellId (.ident g)) ps
    | none =>
      if p.instances > 1 ∨ p.name ∈ agg then
        processStore scopeVars agg (swapCell st p.cellId (.ident p.gen)) ps
      else
        processStore scopeVars agg st ps

mutual
/-- `dumpScope(scope, body, scopeVars)` of `part_005` lines 19–59: process
this scope's `usedProps` (retarget cells, collect `variablesInThisScope`),
then for each child scope in order `body.unshift(childScope.mainFn)` and
recurse into the child's function body with the extended map, and lastly
`body.unshift` the destructuring statement when `variablesInThisScope` is
non-empty.  Returns the final statement list and cell store. -/
def dumpScope (s : Scope) (body : List Stmt)
    (scopeVars : List (String × String)) (st : Store) : List Stmt × Store :=
  match s with
  | .node _ props children _ =>
    let agg := aggChildren children
    let vars := hoistedPairs scopeVars agg props
    let st1 := processStore scopeVars agg st props
    let nextScope := scopeVars ++ vars
    let (body2, st2) := dumpChildren children body nextScope st1
    (if vars.isEmpty then body2 else Stmt.hoistDestr vars :: body2, st2)

/-- The `for (const childScope of scope.childScopes)` loop: each iteration
unshifts the child's helper declaration onto the parent body and recursively
flattens the child (the recursion mutates the same function object whose
declaration was just unshifted, so the declaration carries the processed
child body). -/
def dumpChildren (cs : List Scope) (body : List Stmt)
    (scopeVars : List (String × String)) (st : Store) : List Stmt × Store :=
  match cs with
  | [] => (body, st)
  | c :: rest =>
    let (cbody, st1) := dumpScope c c.fnBody scopeVars st
    dumpChildren rest (Stmt.helperDecl c.sid cbody :: body) scopeVars st1
end

/-- Slot-table lookup (`codeGen.usedSlots[name]`), yielding `none` for a
JavaScript `undefined` read of an absent key. -/
def lookupSlot (usedSlots : List (String × String)) (n : String) :
    Option String :=
  lookupA usedSlots n

/-- `generateTemplateFunction` of `codegen.ts` lines 854–937, as a function
of the generator state reached after the tree walk: `usedApis` (name →
alias, insertion order), the `getUsedComponentProperties()` result
`usedCPs`, the root scope and cell store, `usedSlots`, and `memorizedIds`.
The body starts as the `$api` destructuring, then pushes the instance
destructuring when `usedCPs` is non-empty, then calls `dumpScope` on the
root scope with this body (the root call carries the empty ancestor-alias
map), then pushes the slot-set destructuring when `usedSlots` is non-empty
— whose keys enumerate `Object.keys(codeGen.usedApis)`, each looked up in
`codeGen.usedSlots` (line 903) — then the `$ctx` destructuring when any
handler ids were memoized, and finally the return statement. -/
def generateTemplateFunction (usedApis usedCPs : List (String × String))
    (root : Scope) (st : Store) (usedSlots : List (String × String))
    (memorizedIds : List String) : List Stmt :=
  let body0 : List Stmt := [Stmt.apiDestr usedApis]
  let body1 := if usedCPs.isEmpty then body0 else body0 ++ [Stmt.instDestr usedCPs]
  let (body2, _) := dumpScope root body1 [] st
  let body3 :=
    if usedSlots.isEmpty then body2
    else body2 ++ [Stmt.slotDestr (usedApis.map (fun x => (x.1, lookupSlot usedSlots x.1)))]
  let body4 := if memorizedIds.isEmpty then body3 else body3 ++ [Stmt.ctxDestr memorizedIds]
  body4 ++ [Stmt.ret]

/-! ## Module-level generator state (`scope.ts` and the `part_001` counter)

`scope.ts` keeps `const usedProps = new Map<string, string>()` at module
level — it is never reset between compilations.  `part_001` keeps
`let scopes = 0` at module level, bumped by every `new Scope()`
(`id = ++scopes`). -/

/-- The cross-invocation module state: the `scopes` counter of `part_001`
line 38 and the `usedProps` map of `scope.ts` line 14. -/
structure ModuleState where
  scopes : Nat
  usedProps : List (String × String)
deriving DecidableEq, Repr

/-- `getPropName` of `scope.ts` lines 16–26: memoize `name ↦ $cv<size>` in
the module-level map. -/
def modGetPropName (m : List (String × String)) (name : String) :
    String × List (String × String) :=
  match lookupA m name with
  | some a => (a, m)
  | none =>
    let a := "$cv" ++ toString m.length
    (a, m ++ [(name, a)])

/-- Binding every instance-property reference of the walk, in tree-walk
order (`bindExpression` calls `getPropName` once per reference site). -/
def bindAll (m : List (String × String)) :
    List String → List String × List (String × String)
  | [] => ([], m)
  | n :: ns =>
    let (a, m1) := modGetPropName m n
    let (as', m2) := bindAll m1 ns
    (a :: as', m2)

/-- The observable output of one compilation in this model: the root scope
id (derived from the `scopes` counter as in `part_001`, `id = ++scopes`),
the alias chosen at each reference site in walk order, and the
`getUsedComponentProperties()` destructuring table at the end. -/
structure GenOutput where
  rootScopeId : Nat
  siteAliases : List String
  destructured : List (String × String)
deriving DecidableEq, Repr

/-- One compilation against the module state: allocate the root scope id
from the `scopes` counter, bind all property references through the
module-level `usedProps` map, and read the destructuring table back out of
that map. -/
def compileOnce (st : ModuleState) (ir : List String) :
    GenOutput × ModuleState :=
  let sid := st.scopes + 1
  let (aliases, m') := bindAll st.usedProps ir
  (⟨sid, aliases, m'⟩, ⟨sid, m'⟩)

/-- A compilation run with fresh per-compilation counters, as the claim
hypothesises: the `scopes` counter is reset to `0` before compiling; the
module-level `usedProps` map is NOT a counter and is not reset (it never is
in `scope.ts`). -/
def compileFresh (st : ModuleState) (ir : List String) :
    GenOutput × ModuleState :=
  compileOnce ⟨0, st.usedProps⟩ ir

/-! ## Conditional lowering (`applyInlineIf`, `codegen.ts` lines 527–574) -/

/-- Compiler errors surfaced by the codegen stage.  `generateCompilerError(
TemplateErrors.UNKNOWN_IF_MODIFIER, { messageArgs: [modifier] })` carries
the offending modifier. -/
inductive CompErr where
  | unknownIfModifier (modifier : String)
deriving DecidableEq, Repr

/-- Runtime JavaScript values that a bound test expression may evaluate
to, as far as the conditional truth table needs them. -/
inductive JSVal where
  | num (n : Int)
  | boolV (b : Bool)
  | nullV
  | strV (s : String)
deriving DecidableEq, Repr

/-- JavaScript truthiness. -/
def truthy : JSVal → Bool
  | .num n => decide (n ≠ 0)
  | .boolV b => b
  | .nullV => false
  | .strV s => decide (s ≠ "")

/-- JavaScript strict equality against the literal `true`
(`v === true`): true exactly for the boolean value `true`. -/
def jsStrictEqTrue : JSVal → Bool
  | .boolV b => b
  | _ => false

/-- The `leftExpression` built over the single helper parameter `t`. -/
inductive TestExpr where
  | param
  | notE (e : TestExpr)
  | strictTrueE (e : TestExpr)
deriving DecidableEq, Repr

/-- Evaluating the test expression at the runtime value `tv` passed for the
helper's sole parameter. -/
def evalTestExpr (tv : JSVal) : TestExpr → JSVal
  | .param => tv
  | .notE e => .boolV (!truthy (evalTestExpr tv e))
  | .strictTrueE e => .boolV (jsStrictEqTrue (evalTestExpr tv e))

/-- The modifier dispatch of `applyInlineIf` (`codegen.ts` lines 546–557):
`true` → the test parameter itself, `false` → `!t`, `strict-true` →
`t === true`, anything else → `generateCompilerError(UNKNOWN_IF_MODIFIER)`
with the offending modifier. -/
def leftExpressionFor (modifier : String) : Except CompErr TestExpr :=
  if modifier = "true" then .ok .param
  else if modifier = "false" then .ok (.notE .param)
  else if modifier = "strict-true" then .ok (.strictTrueE .param)
  else .error (.unknownIfModifier modifier)

/-- The lowered conditional: a single-parameter helper returning a ternary
`leftExpression ? node : falsy`. -/
inductive IfLowered where
  | ternary (test : TestExpr)
deriving DecidableEq, Repr

/-- `applyInlineIf` restricted to what the conditional claims depend on:
building the ternary over the dispatched `leftExpression`. -/
def applyInlineIfLower (modifier : String) : Except CompErr IfLowered :=
  (leftExpressionFor modifier).map IfLowered.ternary

/-- Whether the generated ternary selects its true branch when the helper
is invoked with test value `tv`. -/
def selectsTrueBranch (tv : JSVal) : IfLowered → Bool
  | .ternary l => truthy (evalTestExpr tv l)

/-! ## A miniature template compile for error propagation (C7) -/

/-- A template subtree: elements may carry an `if` directive with a
modifier string; lowering an element transforms its children first
(`transformElement` builds the children before `applyInlineIf`). -/
inductive MiniNode where
  | elem (ifModifier : Option String) (children : List MiniNode)
  | text

/-- The three recognized conditional modifiers. -/
def recognizedModifier (m : String) : Bool :=
  m = "true" || m = "false" || m = "strict-true"

/-- Lowering a node's optional conditional directive: no directive is a
no-op; a directive runs the modifier dispatch, whose thrown error
propagates. -/
def compileIfDirective : Option String → Except CompErr Unit
  | none => Except.ok ()
  | some m => (applyInlineIfLower m).bind fun _ => Except.ok ()

mutual
/-- Compiling a subtree: children first, then the node's own conditional
lowering; a thrown `generateCompilerError` aborts the compilation (the
`Except` error), so no partial output is returned. -/
def compileNode : MiniNode → Except CompErr Unit
  | .text => Except.ok ()
  | .elem ifm children =>
    (compileList children).bind fun _ => compileIfDirective ifm

def compileList : List MiniNode → Except CompErr Unit
  | [] => Except.ok ()
  | n :: ns => (compileNode n).bind fun _ => compileList ns
end

/-- Whether an optional conditional directive carries an unrecognized
modifier. -/
def unknownIfDirective : Option String → Bool
  | none => false
  | some m => !recognizedModifier m

mutual
/-- Whether some conditional directive in the subtree carries an
unrecognized modifier. -/
def hasUnknownModifier : MiniNode → Bool
  | .text => false
  | .elem ifm children =>
    unknownIfDirective ifm || hasUnknownModifierList children

def hasUnknownModifierList : List MiniNode → Bool
  | [] => false
  | n :: ns => hasUnknownModifier n || hasUnknownModifierList ns
end

/-! ## Per-scope property binder state (`Scope.getPropName`, `part_005`
lines 108–128) -/

/-- The state of one `Scope` as the binder mutates it, together with a
fresh-cell allocator for the `NodeRefProxy` instances it creates. -/
structure ScopeBindState where
  sid : Nat
  usedProps : List PropUsage
  nextCell : Nat
deriving DecidableEq, Repr

/-- `usedProps.get(name)` on the insertion-ordered record list. -/
def findByName : List PropUsage → String → Option PropUsage
  | [], _ => none
  | p :: ps, n => if p.name = n then some p else findByName ps n

/-- `memoizedPropName.instances++` on the record stored under `name`. -/
def bumpInstances (l : List PropUsage) (n : String) : List PropUsage :=
  l.map (fun p => if p.name = n then { p with instances := p.instances + 1 } else p)

/-- `Scope.getPropName` of `part_005`: if no record exists for the name,
create one with a fresh `NodeRefProxy` wrapping `$cmp.<name>`, generated
alias `$cv<scopeId>_<usedProps.size>` and `instances` 0; then increment
`instances` and return `memoizedPropName.usage.instance` — the proxy view,
represented by the record's cell id. -/
def scopeGetPropName (st : ScopeBindState) (name : String) :
    Nat × ScopeBindState :=
  match findByName st.usedProps name with
  | some p => (p.cellId, { st with usedProps := bumpInstances st.usedProps name })
  | none =>
    let gen := "$cv" ++ toString st.sid ++ "_" ++ toString st.usedProps.length
    let p : PropUsage := ⟨name, gen, st.nextCell, 1⟩
    (st.nextCell, { st with usedProps := st.usedProps ++ [p], nextCell := st.nextCell + 1 })

/-- `k` further calls of the binder for the same name, collecting the
returned proxy views. -/
def callRepeat (st : ScopeBindState) (name : String) :
    Nat → List Nat × ScopeBindState
  | 0 => ([], st)
  | k + 1 =>
    let (c, st1) := scopeGetPropName st name
    let (cs, st2) := callRepeat st1 name k
    (c :: cs, st2)

/-! ## Render-primitive emitter (`codegen.ts` lines 18–54 and 249–261) -/

/-- The fixed set of render primitives. -/
inductive RenderPrimitive where
  | iterator | flatten | element | slot | customElement | dynamicCtor
  | bind | text | dynamic | key | tabindex | scopedId | scopedFragId
  | comment
deriving DecidableEq, Repr

/-- The `name` column of the static `RENDER_APIS` table. -/
def primName : RenderPrimitive → String
  | .iterator => "i"
  | .flatten => "f"
  | .element => "h"
  | .slot => "s"
  | .customElement => "c"
  | .dynamicCtor => "dc"
  | .bind => "b"
  | .text => "t"
  | .dynamic => "d"
  | .key => "k"
  | .tabindex => "ti"
  | .scopedId => "gid"
  | .scopedFragId => "fid"
  | .comment => "co"

/-- The `alias` column of the static `RENDER_APIS` table. -/
def primAlias : RenderPrimitive → String
  | .iterator => "api_iterator"
  | .flatten => "api_flatten"
  | .element => "api_element"
  | .slot => "api_slot"
  | .customElement => "api_custom_element"
  | .dynamicCtor => "api_dynamic_component"
  | .bind => "api_bind"
  | .text => "api_text"
  | .dynamic => "api_dynamic"
  | .key => "api_key"
  | .tabindex => "api_tab_index"
  | .scopedId => "api_scoped_id"
  | .scopedFragId => "api_scoped_frag_id"
  | .comment => "api_comment"

/-- `_renderApiCall`'s bookkeeping on `this.usedApis`: record
`usedApis[name] = t.identifier(alias)` on first use of the primitive,
leave the table unchanged afterwards (string keys keep insertion order). -/
def renderApiCall (usedApis : List (String × String)) (p : RenderPrimitive) :
    List (String × String) :=
  if (lookupA usedApis (primName p)).isSome then usedApis
  else usedApis ++ [(primName p, primAlias p)]

/-- The `usedApis` table after a whole tree walk, given the sequence of
emitter invocations in walk order. -/
def runEmits (usedApis : List (String × String)) :
    List RenderPrimitive → List (String × String)
  | [] => usedApis
  | p :: ps => runEmits (renderApiCall usedApis p) ps

/-- First-use-ordered deduplication of the invoked primitives, by primitive
name, skipping names in `seen`. -/
def firstUsesAux (seen : List String) :
    List RenderPrimitive → List (String × String)
  | [] => []
  | p :: ps =>
    if primName p ∈ seen then firstUsesAux seen ps
    else (primName p, primAlias p) :: firstUsesAux (primName p :: seen) ps

/-- The `(name, alias)` pairs of the primitives actually invoked, in order
of first use. -/
def firstUses (ps : List RenderPrimitive) : List (String × String) :=
  firstUsesAux [] ps

/-! ## Derived collectors used to state properties of the flattening pass -/

mutual
/-- Every property usage record of a scope subtree. -/
def allRecords : Scope → List PropUsage
  | .node _ props children _ => props ++ allRecordsList children

def allRecordsList : List Scope → List PropUsage
  | [] => []
  | c :: cs => allRecords c ++ allRecordsList cs
end

mutual
/-- Property names appearing in destructuring (`hoistDestr`) statements
anywhere in a statement, including inside nested helper bodies. -/
def hoistNamesStmt : Stmt → List String
  | .hoistDestr pairs => pairs.map (·.1)
  | .helperDecl _ body => hoistNamesBody body
  | _ => []

def hoistNamesBody : List Stmt → List String
  | [] => []
  | s :: ss => hoistNamesStmt s ++ hoistNamesBody ss
end

mutual
/-- Hoist-destructuring names already present, before flattening, in the
function bodies of a scope subtree (in the real generator these bodies hold
only return statements, so these lists are empty). -/
def preHoistNames : Scope → List String
  | .node _ _ children fnBody => hoistNamesBody fnBody ++ preHoistList children

def preHoistList : List Scope → List String
  | [] => []
  | c :: cs => preHoistNames c ++ preHoistList cs
end

/-- The helper-declaration scope id of a statement, when it is one. -/
def stmtHelperId? : Stmt → Option Nat
  | .helperDecl i _ => some i
  | _ => none

/-- The slot-set destructuring payloads among the top-level statements of
an assembled render function. -/
def topSlotEntries : List Stmt → List (List (String × Option String))
  | [] => []
  | .slotDestr es :: ss => es :: topSlotEntries ss
  | _ :: ss => topSlotEntries ss

/-- What the flattening loop leaves in a usage record's reference cell,
given its previous contents `old`: the inherited alias when one exists, the
scope's generated alias when the hoisting condition fires, and `old`
(untouched) otherwise. -/
def targetFor (scopeVars : List (String × String)) (agg : List String)
    (r : PropUsage) (old : CellExpr) : CellExpr :=
  match lookupA scopeVars r.name with
  | some g => .ident g
  | none => if r.instances > 1 ∨ r.name ∈ agg then .ident r.gen else old


/-! ## Concrete instances used by witnesses and counterexamples -/

/-- Concrete scope for the C1 witness: property `a` read once in the scope
and once in a child scope. -/
def exScopeC1 : Scope :=
  .node 0 [⟨"a", "$cv0_0", 0, 1⟩]
    [.node 1 [⟨"a", "$cv1_0", 1, 1⟩] [] [.other 5]] []

/-- A store with every cell at the original `$cmp.a` access. -/
def exStoreA : Store := fun _ => CellExpr.memberInstance "a"

/-- Concrete scope for the C2 witness: property `a` used twice here, but
already aliased by an ancestor. -/
def exScopeC2 : Scope := .node 3 [⟨"a", "$cv3_0", 0, 2⟩] [] []

/-- Scope with two child scopes (creation order: id 1 then id 2) and one
hoisted property, for the C3 counterexample. -/
def exScopeC3 : Scope :=
  .node 0 [⟨"a", "$cv0_0", 0, 2⟩]
    [.node 1 [] [] [.other 11], .node 2 [] [] [.other 12]] []

end LwcSpec

namespace LwcSpec

theorem lookupA_append_some {a b : List (String × String)} {n : String} {v : String}
    (h : lookupA a n = some v) : lookupA (a ++ b) n = some v := by
  induction a with
  | nil => simp [lookupA] at h
  | cons hd tl ih =>
    cases hd with
    | mk k w =>
      by_cases hk : k = n
      · simp [lookupA, hk] at h ⊢; exact h
      · simp [lookupA, hk] at h ⊢; exact ih h

theorem lookupA_append_none {a b : List (String × String)} {n : String}
    (h : lookupA a n = none) : lookupA (a ++ b) n = lookupA b n := by
  induction a with
  | nil => simp [lookupA]
  | cons hd tl ih =>
    cases hd with
    | mk k w =>
      by_cases hk : k = n
      · simp [lookupA, hk] at h
      · simp [lookupA, hk] at h ⊢; exact ih h

theorem mem_hoistedPairs {sv : List (String × String)} {agg : List String}
    {props : List PropUsage} {n g : String} :
    (n, g) ∈ hoistedPairs sv agg props ↔
      ∃ p ∈ props, p.name = n ∧ p.gen = g ∧ lookupA sv n = none ∧
        (p.instances > 1 ∨ p.name ∈ agg) := by
  induction props with
  | nil => simp [hoistedPairs]
  | cons p ps ih =>
    unfold hoistedPairs
    cases hl : lookupA sv p.name with
    | some w =>
      simp only [ih]
      constructor
      · rintro ⟨q, hq, rest⟩; exact ⟨q, List.mem_cons_of_mem _ hq, rest⟩
      · rintro ⟨q, hq, hn, hg, hnone, hcond⟩
        rcases List.mem_cons.mp hq with rfl | hq'
        · rw [hn] at hl; rw [hl] at hnone; cases hnone
        · exact ⟨q, hq', hn, hg, hnone, hcond⟩
    | none =>
      by_cases hc : p.instances > 1 ∨ p.name ∈ agg
      · simp only [if_pos hc, List.mem_cons, ih]
        constructor
        · rintro (heq | ⟨q, hq, rest⟩)
          · injection heq with h1 h2
            exact ⟨p, Or.inl rfl, h1.symm, h2.symm, by rw [h1]; exact hl, hc⟩
          · exact ⟨q, Or.inr hq, rest⟩
        · rintro ⟨q, hq, hn, hg, hnone, hcond⟩
          rcases hq with rfl | hq'
          · exact Or.inl (by rw [hn, hg])
          · exact Or.inr ⟨q, hq', hn, hg, hnone, hcond⟩
      · simp only [if_neg hc, ih]
        constructor
        · rintro ⟨q, hq, rest⟩; exact ⟨q, List.mem_cons_of_mem _ hq, rest⟩
        · rintro ⟨q, hq, hn, hg, hnone, hcond⟩
          rcases List.mem_cons.mp hq with rfl | hq'
          · exact absurd hcond hc
          · exact ⟨q, hq', hn, hg, hnone, hcond⟩

end LwcSpec

namespace LwcSpec

theorem swapCell_self (st : Store) (cid : Nat) (e : CellExpr) :
    swapCell st cid e cid = e := by
  simp [swapCell]

theorem swapCell_ne (st : Store) {cid c : Nat} (e : CellExpr) (h : c ≠ cid) :
    swapCell st cid e c = st c := by
  simp [swapCell, h]

theorem processStore_notmem {sv : List (String × String)} {agg : List String}
    {st : Store} {props : List PropUsage} {cid : Nat}
    (h : ∀ p ∈ props, p.cellId ≠ cid) :
    processStore sv agg st props cid = st cid := by
  induction props generalizing st with
  | nil => rfl
  | cons p ps ih =>
    have hp : p.cellId ≠ cid := h p (List.mem_cons_self _ _)
    have hps : ∀ q ∈ ps, q.cellId ≠ cid := fun q hq => h q (List.mem_cons_of_mem _ hq)
    unfold processStore
    cases hl : lookupA sv p.name with
    | some g =>
      dsimp only
      rw [ih hps, swapCell_ne _ _ (fun he => hp he.symm)]
    | none =>
      dsimp only
      by_cases hc : p.instances > 1 ∨ p.name ∈ agg
      · rw [if_pos hc, ih hps, swapCell_ne _ _ (fun he => hp he.symm)]
      · rw [if_neg hc, ih hps]

theorem processStore_at {sv : List (String × String)} {agg : List String}
    {st : Store} {props : List PropUsage} {r : PropUsage}
    (hr : r ∈ props) (hnd : (props.map (fun p => p.cellId)).Nodup) :
    processStore sv agg st props r.cellId = targetFor sv agg r (st r.cellId) := by
  induction props generalizing st with
  | nil => cases hr
  | cons p ps ih =>
    rw [List.map_cons, List.nodup_cons] at hnd
    obtain ⟨hpn, hnd'⟩ := hnd
    rcases List.mem_cons.mp hr with rfl | hr'
    · -- head is r; afterwards no record in ps touches r.cellId
      have hrest : ∀ q ∈ ps, q.cellId ≠ r.cellId := by
        intro q hq he
        exact hpn (he ▸ List.mem_map_of_mem (fun x => x.cellId) hq)
      unfold processStore targetFor
      cases hl : lookupA sv r.name with
      | some g =>
        dsimp only
        rw [processStore_notmem hrest, swapCell_self]
      | none =>
        dsimp only
        by_cases hc : r.instances > 1 ∨ r.name ∈ agg
        · rw [if_pos hc, if_pos hc, processStore_notmem hrest, swapCell_self]
        · rw [if_neg hc, if_neg hc, processStore_notmem hrest]
    · -- head is someone else; its swap leaves r.cellId alone
      have hne : r.cellId ≠ p.cellId := by
        intro he
        exact hpn (he ▸ List.mem_map_of_mem (fun x => x.cellId) hr')
      unfold processStore
      cases hl : lookupA sv p.name with
      | some g =>
        dsimp only
        rw [ih hr' hnd', swapCell_ne _ _ hne]
      | none =>
        dsimp only
        by_cases hc : p.instances > 1 ∨ p.name ∈ agg
        · rw [if_pos hc, ih hr' hnd', swapCell_ne _ _ hne]
        · rw [if_neg hc, ih hr' hnd']

end LwcSpec

namespace LwcSpec

mutual
theorem dumpScope_store_notmem (s : Scope) (body : List Stmt)
    (sv : List (String × String)) (st : Store) (cid : Nat)
    (h : ∀ p ∈ allRecords s, p.cellId ≠ cid) :
    (dumpScope s body sv st).snd cid = st cid := by
  match s with
  | .node i props children fnBody =>
    unfold dumpScope
    dsimp only
    have hprops : ∀ p ∈ props, p.cellId ≠ cid := by
      intro p hp
      exact h p (by unfold allRecords; exact List.mem_append_left _ hp)
    have hkids : ∀ p ∈ allRecordsList children, p.cellId ≠ cid := by
      intro p hp
      exact h p (by unfold allRecords; exact List.mem_append_right _ hp)
    rw [dumpChildren_store_notmem children body _ _ cid hkids,
      processStore_notmem hprops]

theorem dumpChildren_store_notmem (cs : List Scope) (body : List Stmt)
    (sv : List (String × String)) (st : Store) (cid : Nat)
    (h : ∀ p ∈ allRecordsList cs, p.cellId ≠ cid) :
    (dumpChildren cs body sv st).snd cid = st cid := by
  match cs with
  | [] => rfl
  | c :: rest =>
    unfold dumpChildren
    dsimp only
    have hc : ∀ p ∈ allRecords c, p.cellId ≠ cid := by
      intro p hp
      exact h p (by unfold allRecordsList; exact List.mem_append_left _ hp)
    have hrest : ∀ p ∈ allRecordsList rest, p.cellId ≠ cid := by
      intro p hp
      exact h p (by unfold allRecordsList; exact List.mem_append_right _ hp)
    rw [dumpChildren_store_notmem rest _ _ _ cid hrest,
      dumpScope_store_notmem c c.fnBody sv st cid hc]
end

end LwcSpec

namespace LwcSpec

theorem dumpChildren_body_append (cs : List Scope)
    (sv : List (String × String)) :
    ∀ (body : List Stmt) (st : Store),
      dumpChildren cs body sv st =
        ((dumpChildren cs [] sv st).fst ++ body, (dumpChildren cs [] sv st).snd) := by
  induction cs with
  | nil => intro body st; rfl
  | cons c rest ih =>
    intro body st
    show dumpChildren (c :: rest) body sv st = _
    unfold dumpChildren
    dsimp only
    rw [ih (Stmt.helperDecl c.sid (dumpScope c c.fnBody sv st).fst :: body)]
    rw [ih [Stmt.helperDecl c.sid (dumpScope c c.fnBody sv st).fst]]
    simp

theorem dumpChildren_helpers (cs : List Scope)
    (sv : List (String × String)) (st : Store) :
    (∀ x ∈ (dumpChildren cs [] sv st).fst, (stmtHelperId? x).isSome) ∧
      (dumpChildren cs [] sv st).fst.filterMap stmtHelperId? =
        (cs.map Scope.sid).reverse := by
  induction cs generalizing st with
  | nil =>
    constructor
    · intro x hx; cases hx
    · rfl
  | cons c rest ih =>
    have hstep :
        (dumpChildren (c :: rest) [] sv st).fst =
          (dumpChildren rest [] sv (dumpScope c c.fnBody sv st).snd).fst ++
            [Stmt.helperDecl c.sid (dumpScope c c.fnBody sv st).fst] := by
      conv_lhs => unfold dumpChildren
      dsimp only
      rw [dumpChildren_body_append]
    obtain ⟨ihAll, ihIds⟩ := ih (dumpScope c c.fnBody sv st).snd
    constructor
    · intro x hx
      rw [hstep] at hx
      rcases List.mem_append.mp hx with hx1 | hx2
      · exact ihAll x hx1
      · rcases List.mem_singleton.mp hx2 with rfl
        rfl
    · rw [hstep, List.filterMap_append, ihIds]
      simp [stmtHelperId?]

end LwcSpec

namespace LwcSpec

theorem aggOf_node (i : Nat) (props : List PropUsage) (children : List Scope)
    (fb : List Stmt) :
    aggOf (.node i props children fb) = aggChildren children := by
  unfold aggOf
  rfl

theorem dumpScope_structure (s : Scope) (body : List Stmt)
    (sv : List (String × String)) (st : Store) :
    (dumpScope s body sv st).fst =
      (if (hoistedPairs sv (aggOf s) s.usedProps).isEmpty then []
       else [Stmt.hoistDestr (hoistedPairs sv (aggOf s) s.usedProps)]) ++
      (dumpChildren s.childScopes []
        (sv ++ hoistedPairs sv (aggOf s) s.usedProps)
        (processStore sv (aggOf s) st s.usedProps)).fst ++ body := by
  match s with
  | .node i props children fb =>
    conv_lhs => unfold dumpScope
    dsimp only [Scope.usedProps, Scope.childScopes]
    simp only [aggOf_node]
    rw [dumpChildren_body_append]
    by_cases he : (hoistedPairs sv (aggChildren children) props).isEmpty
    · rw [if_pos he, if_pos he]
      simp
    · rw [if_neg he, if_neg he]
      simp

end LwcSpec

namespace LwcSpec

theorem allRecords_node (i : Nat) (props : List PropUsage)
    (children : List Scope) (fb : List Stmt) :
    allRecords (.node i props children fb) = props ++ allRecordsList children := by
  unfold allRecords
  rfl

theorem dumpScope_store_at (s : Scope) (body : List Stmt)
    (sv : List (String × String)) (st : Store) (r : PropUsage)
    (hr : r ∈ s.usedProps)
    (hnd : ((allRecords s).map (fun p => p.cellId)).Nodup) :
    (dumpScope s body sv st).snd r.cellId =
      targetFor sv (aggOf s) r (st r.cellId) := by
  match s with
  | .node i props children fb =>
    rw [allRecords_node, List.map_append] at hnd
    rw [List.nodup_append] at hnd
    obtain ⟨hnd1, hnd2, hdisj⟩ := hnd
    have hrcid : r.cellId ∈ props.map (fun p => p.cellId) :=
      List.mem_map_of_mem _ hr
    have hkids : ∀ p ∈ allRecordsList children, p.cellId ≠ r.cellId := by
      intro p hp he
      exact hdisj hrcid (he ▸ List.mem_map_of_mem (fun q => q.cellId) hp)
    conv_lhs => unfold dumpScope
    dsimp only [Scope.usedProps, Scope.childScopes] at *
    simp only [aggOf_node]
    rw [dumpChildren_store_notmem _ _ _ _ _ hkids, processStore_at hr hnd1]

theorem hoistNamesBody_cons (s : Stmt) (ss : List Stmt) :
    hoistNamesBody (s :: ss) = hoistNamesStmt s ++ hoistNamesBody ss := by
  conv_lhs => unfold hoistNamesBody

theorem hoistNamesStmt_helper (i : Nat) (b : List Stmt) :
    hoistNamesStmt (.helperDecl i b) = hoistNamesBody b := by
  unfold hoistNamesStmt
  rfl

theorem hoistNamesStmt_hoist (pairs : List (String × String)) :
    hoistNamesStmt (.hoistDestr pairs) = pairs.map (fun x => x.1) := by
  unfold hoistNamesStmt
  rfl

theorem preHoistNames_def (c : Scope) :
    preHoistNames c = hoistNamesBody c.fnBody ++ preHoistList c.childScopes := by
  match c with
  | .node i props children fb =>
    unfold preHoistNames
    rfl

theorem preHoistList_cons (c : Scope) (cs : List Scope) :
    preHoistList (c :: cs) = preHoistNames c ++ preHoistList cs := by
  conv_lhs => unfold preHoistList

theorem aggChildren_cons (c : Scope) (cs : List Scope) :
    aggChildren (c :: cs) =
      c.usedProps.map (fun p => p.name) ++ aggOf c ++ aggChildren cs := by
  conv_lhs => unfold aggChildren

theorem hoistedPairs_names_subset {sv : List (String × String)}
    {agg : List String} {props : List PropUsage} {n : String}
    (h : n ∈ (hoistedPairs sv agg props).map (fun x => x.1)) :
    n ∈ props.map (fun p => p.name) := by
  rcases List.mem_map.mp h with ⟨⟨a, b⟩, hmem, heq⟩
  rcases mem_hoistedPairs.mp hmem with ⟨p, hp, hn, _, _, _⟩
  exact List.mem_map.mpr ⟨p, hp, by rw [hn]; exact heq⟩

end LwcSpec

namespace LwcSpec

theorem hoistNamesBody_append (a b : List Stmt) :
    hoistNamesBody (a ++ b) = hoistNamesBody a ++ hoistNamesBody b := by
  induction a with
  | nil =>
    have h0 : hoistNamesBody ([] : List Stmt) = [] := by
      unfold hoistNamesBody
      rfl
    rw [List.nil_append, h0, List.nil_append]
  | cons s ss ih =>
    rw [List.cons_append, hoistNamesBody_cons, hoistNamesBody_cons, ih,
      List.append_assoc]

mutual
theorem dumpScope_hoistNames (s : Scope) (body : List Stmt)
    (sv : List (String × String)) (st : Store) (n : String)
    (h : n ∈ hoistNamesBody (dumpScope s body sv st).fst) :
    n ∈ hoistNamesBody body ∨
      n ∈ (hoistedPairs sv (aggOf s) s.usedProps).map (fun x => x.1) ∨
      n ∈ aggOf s ∨ n ∈ preHoistList s.childScopes := by
  match s with
  | .node i props children fb =>
    rw [dumpScope_structure] at h
    dsimp only [Scope.usedProps, Scope.childScopes] at *
    simp only [aggOf_node] at *
    rw [hoistNamesBody_append, hoistNamesBody_append] at h
    rcases List.mem_append.mp h with h1 | h2
    · rcases List.mem_append.mp h1 with h11 | h12
      · by_cases he : (hoistedPairs sv (aggChildren children) props).isEmpty
        · rw [if_pos he] at h11; cases h11
        · rw [if_neg he] at h11
          rw [hoistNamesBody_cons, hoistNamesStmt_hoist] at h11
          rcases List.mem_append.mp h11 with h111 | h112
          · exact Or.inr (Or.inl h111)
          · cases h112
      · rcases dumpChildren_hoistNames children []
          (sv ++ hoistedPairs sv (aggChildren children) props)
          (processStore sv (aggChildren children) st props) n h12 with
          hb | hrest
        · cases hb
        · rcases hrest with ha | hp
          · exact Or.inr (Or.inr (Or.inl ha))
          · exact Or.inr (Or.inr (Or.inr hp))
    · exact Or.inl h2

theorem dumpChildren_hoistNames (cs : List Scope) (body : List Stmt)
    (sv : List (String × String)) (st : Store) (n : String)
    (h : n ∈ hoistNamesBody (dumpChildren cs body sv st).fst) :
    n ∈ hoistNamesBody body ∨ n ∈ aggChildren cs ∨ n ∈ preHoistList cs := by
  match cs with
  | [] => exact Or.inl h
  | c :: rest =>
    rw [show dumpChildren (c :: rest) body sv st =
        dumpChildren rest
          (Stmt.helperDecl c.sid (dumpScope c c.fnBody sv st).fst :: body)
          sv (dumpScope c c.fnBody sv st).snd from by
      conv_lhs => unfold dumpChildren] at h
    rcases dumpChildren_hoistNames rest _ sv _ n h with h1 | h2 | h3
    · rw [hoistNamesBody_cons, hoistNamesStmt_helper] at h1
      rcases List.mem_append.mp h1 with h11 | h12
      · rcases dumpScope_hoistNames c c.fnBody sv st n h11 with
          hb | hpair | hagg | hpre
        · refine Or.inr (Or.inr ?_)
          rw [preHoistList_cons, preHoistNames_def]
          exact List.mem_append_left _ (List.mem_append_left _ hb)
        · refine Or.inr (Or.inl ?_)
          rw [aggChildren_cons]
          exact List.mem_append_left _
            (List.mem_append_left _ (hoistedPairs_names_subset hpair))
        · refine Or.inr (Or.inl ?_)
          rw [aggChildren_cons]
          exact List.mem_append_left _ (List.mem_append_right _ hagg)
        · refine Or.inr (Or.inr ?_)
          rw [preHoistList_cons, preHoistNames_def]
          exact List.mem_append_left _ (List.mem_append_right _ hpre)
      · exact Or.inl h12
    · refine Or.inr (Or.inl ?_)
      rw [aggChildren_cons]
      exact List.mem_append_right _ h2
    · refine Or.inr (Or.inr ?_)
      rw [preHoistList_cons]
      exact List.mem_append_right _ h3
end

end LwcSpec

namespace LwcSpec

theorem record_eq_of_name_eq {props : List PropUsage}
    (hnd : (props.map (fun p => p.name)).Nodup) {p q : PropUsage}
    (hp : p ∈ props) (hq : q ∈ props) (h : p.name = q.name) : p = q := by
  classical
  induction props with
  | nil => cases hp
  | cons a rest ih =>
    rw [List.map_cons, List.nodup_cons] at hnd
    obtain ⟨hna, hnd'⟩ := hnd
    rcases List.mem_cons.mp hp with rfl | hp'
    · rcases List.mem_cons.mp hq with rfl | hq'
      · rfl
      · exact absurd (h ▸ List.mem_map_of_mem (fun x => x.name) hq') hna
    · rcases List.mem_cons.mp hq with rfl | hq'
      · exact absurd (h ▸ List.mem_map_of_mem (fun x => x.name) hp') hna
      · exact ih hnd' hp' hq'

/-- C1: in `dumpScope`, a usage record with no inherited alias is
materialized as a local binding (its `(name, gen)` pair is recorded for the
scope's destructuring statement, and its reference cell is retargeted to
the generated alias) iff the property is used more than once in this scope
or also appears in the memoized aggregated child-scope usage set; a record
used exactly once and in no descendant scope appears in no destructuring
statement produced by the pass and its cell keeps the original
`$cmp.<name>` member access. -/
theorem C1_hoist_policy (s : Scope) (body : List Stmt)
    (sv : List (String × String)) (st : Store) (r : PropUsage)
    (hr : r ∈ s.usedProps)
    (hnames : (s.usedProps.map (fun p => p.name)).Nodup)
    (hcells : ((allRecords s).map (fun p => p.cellId)).Nodup)
    (hinh : lookupA sv r.name = none)
    (hinit : st r.cellId = CellExpr.memberInstance r.name)
    (hpre1 : r.name ∉ hoistNamesBody body)
    (hpre2 : r.name ∉ preHoistList s.childScopes) :
    ((r.name, r.gen) ∈ hoistedPairs sv (aggOf s) s.usedProps ↔
      (r.instances > 1 ∨ r.name ∈ aggOf s)) ∧
    ((r.instances > 1 ∨ r.name ∈ aggOf s) →
      (dumpScope s body sv st).snd r.cellId = CellExpr.ident r.gen ∧
      (dumpScope s body sv st).fst.head? =
        some (Stmt.hoistDestr (hoistedPairs sv (aggOf s) s.usedProps))) ∧
    (r.instances = 1 ∧ r.name ∉ aggOf s →
      r.name ∉ hoistNamesBody (dumpScope s body sv st).fst ∧
      (dumpScope s body sv st).snd r.cellId = CellExpr.memberInstance r.name) := by
  have hiff : (r.name, r.gen) ∈ hoistedPairs sv (aggOf s) s.usedProps ↔
      (r.instances > 1 ∨ r.name ∈ aggOf s) := by
    constructor
    · intro hmem
      rcases mem_hoistedPairs.mp hmem with ⟨p, hp, hn, hg, _, hcond⟩
      have : p = r := record_eq_of_name_eq hnames hp hr hn
      rw [this] at hcond
      exact hcond
    · intro hcond
      exact mem_hoistedPairs.mpr ⟨r, hr, rfl, rfl, hinh, hcond⟩
  refine ⟨hiff, ?_, ?_⟩
  · intro hcond
    constructor
    · rw [dumpScope_store_at s body sv st r hr hcells]
      unfold targetFor
      rw [hinh]
      dsimp only
      rw [if_pos hcond]
    · rw [dumpScope_structure]
      have hne : ¬ (hoistedPairs sv (aggOf s) s.usedProps).isEmpty := by
        rw [List.isEmpty_iff]
        exact List.ne_nil_of_mem (hiff.mpr hcond)
      rw [if_neg hne]
      rfl
  · rintro ⟨h1, h2⟩
    have hncond : ¬ (r.instances > 1 ∨ r.name ∈ aggOf s) := by
      rintro (hgt | hin)
      · rw [h1] at hgt; exact absurd hgt (by decide)
      · exact h2 hin
    constructor
    · intro hbad
      rcases dumpScope_hoistNames s body sv st r.name hbad with hb | hp | ha | hpre
      · exact hpre1 hb
      · rcases List.mem_map.mp hp with ⟨⟨a, b⟩, hmem, heq⟩
        rcases mem_hoistedPairs.mp hmem with ⟨p, hpm, hn, _, _, hcond⟩
        have : p = r := record_eq_of_name_eq hnames hpm hr (by rw [hn]; exact heq)
        rw [this] at hcond
        exact hncond hcond
      · exact h2 ha
      · exact hpre2 hpre
    · rw [dumpScope_store_at s body sv st r hr hcells]
      unfold targetFor
      rw [hinh]
      dsimp only
      rw [if_neg hncond, hinit]

/-- Witness for C1: in the concrete scope the aggregated child-scope usage
forces hoisting — the cell is retargeted to the generated alias and the
destructuring statement heads the body. -/
theorem C1_hoist_policy_witness :
    (dumpScope exScopeC1 [] [] exStoreA).snd 0 = CellExpr.ident "$cv0_0" ∧
    (dumpScope exScopeC1 [] [] exStoreA).fst.head? =
      some (Stmt.hoistDestr [("a", "$cv0_0")]) := by
  have h := C1_hoist_policy exScopeC1 [] [] exStoreA ⟨"a", "$cv0_0", 0, 1⟩
    (by decide) (by decide) (by decide) rfl rfl (by decide) (by decide)
  have h2 := h.2.1 (Or.inr (by decide))
  exact ⟨h2.1, h2.2⟩

end LwcSpec

namespace LwcSpec

/-- C2: a usage record whose property name has an inherited ancestor alias
is retargeted to that alias, contributes no pair to the scope's
destructuring list, and the inherited mapping entry is what the recursion
into child scopes still sees. -/
theorem C2_inherited_alias (s : Scope) (body : List Stmt)
    (sv : List (String × String)) (st : Store) (r : PropUsage) (g : String)
    (hr : r ∈ s.usedProps)
    (hcells : ((allRecords s).map (fun p => p.cellId)).Nodup)
    (hinh : lookupA sv r.name = some g) :
    (dumpScope s body sv st).snd r.cellId = CellExpr.ident g ∧
    (∀ x, (r.name, x) ∉ hoistedPairs sv (aggOf s) s.usedProps) ∧
    lookupA (sv ++ hoistedPairs sv (aggOf s) s.usedProps) r.name = some g := by
  refine ⟨?_, ?_, lookupA_append_some hinh⟩
  · rw [dumpScope_store_at s body sv st r hr hcells]
    unfold targetFor
    rw [hinh]
  · intro x hx
    rcases mem_hoistedPairs.mp hx with ⟨p, _, _, _, hnone, _⟩
    rw [hinh] at hnone
    cases hnone

/-- Witness for C2: with inherited mapping `a ↦ $cv1_0`, the cell is
retargeted to the inherited alias, the scope's own destructuring stays
empty, and the mapping passed to children still maps `a` to `$cv1_0`. -/
theorem C2_inherited_alias_witness :
    (dumpScope exScopeC2 [] [("a", "$cv1_0")] exStoreA).snd 0 =
      CellExpr.ident "$cv1_0" ∧
    (∀ x, ("a", x) ∉
      hoistedPairs [("a", "$cv1_0")] (aggOf exScopeC2) exScopeC2.usedProps) ∧
    lookupA ([("a", "$cv1_0")] ++
      hoistedPairs [("a", "$cv1_0")] (aggOf exScopeC2) exScopeC2.usedProps)
      "a" = some "$cv1_0" :=
  C2_inherited_alias exScopeC2 [] [("a", "$cv1_0")] exStoreA
    ⟨"a", "$cv3_0", 0, 2⟩ "$cv1_0" (by decide) (by decide) rfl

/-- C3 (amended): after flattening, the statement list of a scope is the
optional hoist destructuring, then the child helper declarations in
REVERSE child-creation order, then the pre-existing body. -/
theorem C3_sibling_order_amended (s : Scope) (body : List Stmt)
    (sv : List (String × String)) (st : Store) :
    ∃ H : List Stmt,
      (dumpScope s body sv st).fst =
        (if (hoistedPairs sv (aggOf s) s.usedProps).isEmpty then []
         else [Stmt.hoistDestr (hoistedPairs sv (aggOf s) s.usedProps)]) ++
          H ++ body ∧
      (∀ x ∈ H, (stmtHelperId? x).isSome) ∧
      H.filterMap stmtHelperId? = (s.childScopes.map Scope.sid).reverse := by
  refine ⟨(dumpChildren s.childScopes []
    (sv ++ hoistedPairs sv (aggOf s) s.usedProps)
    (processStore sv (aggOf s) st s.usedProps)).fst, ?_, ?_, ?_⟩
  · rw [dumpScope_structure]
  · exact (dumpChildren_helpers _ _ _).1
  · exact (dumpChildren_helpers _ _ _).2

/-- C3 counterexample: flattening `exScopeC3` puts the helper of the
second-created child (id 2) BEFORE the helper of the first-created child
(id 1) — the helpers appear in reverse declaration order, refuting the
claimed original declaration order `[1, 2]`. -/
theorem C3_order_counterexample :
    (dumpScope exScopeC3 [.other 0] [] exStoreA).fst.filterMap stmtHelperId? =
        [2, 1] ∧
      ([2, 1] : List Nat) ≠ [1, 2] ∧
      (dumpScope exScopeC3 [.other 0] [] exStoreA).fst.head? =
        some (Stmt.hoistDestr [("a", "$cv0_0")]) := by
  refine ⟨rfl, by decide, rfl⟩

end LwcSpec

namespace LwcSpec

theorem genTF_def (usedApis usedCPs : List (String × String)) (root : Scope)
    (st : Store) (usedSlots : List (String × String)) (memIds : List String) :
    generateTemplateFunction usedApis usedCPs root st usedSlots memIds =
      (let body1 := if usedCPs.isEmpty then [Stmt.apiDestr usedApis]
        else [Stmt.apiDestr usedApis] ++ [Stmt.instDestr usedCPs];
       let body2 := (dumpScope root body1 [] st).fst;
       let body3 := if usedSlots.isEmpty then body2
        else body2 ++ [Stmt.slotDestr
          (usedApis.map (fun x => (x.1, lookupSlot usedSlots x.1)))];
       let body4 := if memIds.isEmpty then body3
        else body3 ++ [Stmt.ctxDestr memIds];
       body4 ++ [Stmt.ret]) := rfl

theorem genTF_structure (usedApis usedCPs : List (String × String))
    (root : Scope) (st : Store) (usedSlots : List (String × String))
    (memIds : List String) :
    ∃ H : List Stmt,
      generateTemplateFunction usedApis usedCPs root st usedSlots memIds =
        (if (hoistedPairs [] (aggOf root) root.usedProps).isEmpty then []
         else [Stmt.hoistDestr (hoistedPairs [] (aggOf root) root.usedProps)]) ++
        H ++ [Stmt.apiDestr usedApis] ++
        (if usedCPs.isEmpty then [] else [Stmt.instDestr usedCPs]) ++
        (if usedSlots.isEmpty then []
         else [Stmt.slotDestr
           (usedApis.map (fun x => (x.1, lookupSlot usedSlots x.1)))]) ++
        (if memIds.isEmpty then [] else [Stmt.ctxDestr memIds]) ++
        [Stmt.ret] ∧
      (∀ x ∈ H, (stmtHelperId? x).isSome) ∧
      H.filterMap stmtHelperId? = (root.childScopes.map Scope.sid).reverse := by
  refine ⟨(dumpChildren root.childScopes []
    ([] ++ hoistedPairs [] (aggOf root) root.usedProps)
    (processStore [] (aggOf root) st root.usedProps)).fst, ?_,
    (dumpChildren_helpers _ _ _).1, (dumpChildren_helpers _ _ _).2⟩
  rw [genTF_def]
  dsimp only
  rw [dumpScope_structure]
  by_cases h1 : usedCPs.isEmpty <;> by_cases h2 : usedSlots.isEmpty <;>
    by_cases h3 : memIds.isEmpty <;>
    simp [h1, h2, h3, List.append_assoc]

end LwcSpec

namespace LwcSpec

/-- C4 (amended): the assembled render function's top-level statements are,
in order: the root scope's hoist destructuring when any (prepended by the
scope dump), then the child helper declarations in reverse creation order,
then the `$api` destructuring, then the instance destructuring when
non-empty, then the slot-set destructuring when slots were used, then the
`$ctx` destructuring when handlers were memoized, then the return — the
scope-dump output comes BEFORE the api destructuring, not after. -/
theorem C4_assembly_order_amended (usedApis usedCPs : List (String × String))
    (root : Scope) (st : Store) (usedSlots : List (String × String))
    (memIds : List String) :
    ∃ H : List Stmt,
      generateTemplateFunction usedApis usedCPs root st usedSlots memIds =
        (if (hoistedPairs [] (aggOf root) root.usedProps).isEmpty then []
         else [Stmt.hoistDestr (hoistedPairs [] (aggOf root) root.usedProps)]) ++
        H ++ [Stmt.apiDestr usedApis] ++
        (if usedCPs.isEmpty then [] else [Stmt.instDestr usedCPs]) ++
        (if usedSlots.isEmpty then []
         else [Stmt.slotDestr
           (usedApis.map (fun x => (x.1, lookupSlot usedSlots x.1)))]) ++
        (if memIds.isEmpty then [] else [Stmt.ctxDestr memIds]) ++
        [Stmt.ret] ∧
      (∀ x ∈ H, (stmtHelperId? x).isSome) ∧
      H.filterMap stmtHelperId? = (root.childScopes.map Scope.sid).reverse :=
  genTF_structure usedApis usedCPs root st usedSlots memIds

/-- C4 counterexample: with one used primitive and a root scope that hoists
property `a`, the assembled function's first statement is the hoist
destructuring produced by the scope dump, not the claimed `$api`
destructuring. -/
theorem C4_order_counterexample :
    (generateTemplateFunction [("t", "api_text")] [] exScopeC1 exStoreA []
        []).head? = some (Stmt.hoistDestr [("a", "$cv0_0")]) ∧
    (generateTemplateFunction [("t", "api_text")] [] exScopeC1 exStoreA []
        []).head? ≠ some (Stmt.apiDestr [("t", "api_text")]) := by
  refine ⟨rfl, ?_⟩
  intro h
  rw [show (generateTemplateFunction [("t", "api_text")] [] exScopeC1
      exStoreA [] []).head? = some (Stmt.hoistDestr [("a", "$cv0_0")])
    from rfl] at h
  injection h with h2
  exact Stmt.noConfusion h2

end LwcSpec

namespace LwcSpec

theorem topSlotEntries_append (a b : List Stmt) :
    topSlotEntries (a ++ b) = topSlotEntries a ++ topSlotEntries b := by
  induction a with
  | nil => rfl
  | cons s ss ih =>
    cases s <;> simp [topSlotEntries, ih]

theorem topSlotEntries_of_helpers {H : List Stmt}
    (h : ∀ x ∈ H, (stmtHelperId? x).isSome) : topSlotEntries H = [] := by
  induction H with
  | nil => rfl
  | cons s ss ih =>
    have hs := h s (List.mem_cons_self _ _)
    have hss := fun x hx => h x (List.mem_cons_of_mem _ hx)
    cases s with
    | helperDecl i b =>
      simp only [topSlotEntries]
      exact ih hss
    | apiDestr a => simp [stmtHelperId?] at hs
    | instDestr a => simp [stmtHelperId?] at hs
    | hoistDestr a => simp [stmtHelperId?] at hs
    | slotDestr a => simp [stmtHelperId?] at hs
    | ctxDestr a => simp [stmtHelperId?] at hs
    | ret => simp [stmtHelperId?] at hs
    | other t => simp [stmtHelperId?] at hs

/-- C10 (amended): the assembled function contains a slot-set destructuring
statement exactly when `usedSlots` is non-empty, and its keys are exactly
the names of `usedApis`, each looked up in `usedSlots` (a slot name recorded
in `usedSlots` therefore appears as a key only when it coincides with a
used-API name). -/
theorem C10_slot_destructuring_amended (usedApis usedCPs : List (String × String))
    (root : Scope) (st : Store) (usedSlots : List (String × String))
    (memIds : List String) :
    topSlotEntries (generateTemplateFunction usedApis usedCPs root st
        usedSlots memIds) =
      if usedSlots.isEmpty then []
      else [usedApis.map (fun x => (x.1, lookupSlot usedSlots x.1))] := by
  obtain ⟨H, heq, hall, _⟩ :=
    genTF_structure usedApis usedCPs root st usedSlots memIds
  rw [heq]
  repeat rw [topSlotEntries_append]
  rw [topSlotEntries_of_helpers hall]
  by_cases h0 : (hoistedPairs [] (aggOf root) root.usedProps).isEmpty <;>
    by_cases h1 : usedCPs.isEmpty <;> by_cases h2 : usedSlots.isEmpty <;>
    by_cases h3 : memIds.isEmpty <;>
    simp [h0, h1, h2, h3, topSlotEntries]

/-- C10 counterexample: a slot named `t` recorded in `usedSlots` DOES appear
as a destructuring key when the `text` primitive's api name `t` is in
`usedApis` — refuting "slot names recorded in usedSlots never themselves
appear as destructuring keys". -/
theorem C10_slot_keys_counterexample :
    topSlotEntries (generateTemplateFunction [("t", "api_text")] []
        (.node 0 [] [] []) exStoreA [("t", "slot_t")] []) =
      [[("t", some "slot_t")]] ∧
    ("t", "slot_t") ∈ ([("t", "slot_t")] : List (String × String)) := by
  constructor
  · rfl
  · decide

end LwcSpec

namespace LwcSpec

theorem bindAll_extends (m : List (String × String)) (ir : List String) :
    ∃ e, (bindAll m ir).2 = m ++ e := by
  induction ir generalizing m with
  | nil => exact ⟨[], by simp [bindAll]⟩
  | cons n ns ih =>
    unfold bindAll modGetPropName
    cases hl : lookupA m n with
    | some a =>
      dsimp only
      exact ih m
    | none =>
      dsimp only
      obtain ⟨e, he⟩ := ih (m ++ [(n, "$cv" ++ toString m.length)])
      exact ⟨[(n, "$cv" ++ toString m.length)] ++ e, by rw [he, List.append_assoc]⟩

theorem bindAll_mem_isSome (m : List (String × String)) (ir : List String)
    (n : String) (hn : n ∈ ir) : (lookupA (bindAll m ir).2 n).isSome := by
  induction ir generalizing m with
  | nil => cases hn
  | cons x ns ih =>
    unfold bindAll modGetPropName
    rcases List.mem_cons.mp hn with rfl | hn'
    · cases hl : lookupA m n with
      | some a =>
        dsimp only
        obtain ⟨e, he⟩ := bindAll_extends m ns
        rw [he]
        rw [lookupA_append_some hl]
        rfl
      | none =>
        dsimp only
        obtain ⟨e, he⟩ := bindAll_extends (m ++ [(n, "$cv" ++ toString m.length)]) ns
        rw [he, List.append_assoc]
        rw [lookupA_append_none hl]
        have : lookupA ([(n, "$cv" ++ toString m.length)] ++ e) n =
            some ("$cv" ++ toString m.length) := by
          simp [lookupA]
        rw [this]
        rfl
    · cases hl : lookupA m x with
      | some a =>
        dsimp only
        exact ih m hn'
      | none =>
        dsimp only
        exact ih _ hn'

theorem bindAll_stable (m : List (String × String)) (ir : List String)
    (h : ∀ n ∈ ir, (lookupA m n).isSome) :
    bindAll m ir = (ir.map (fun n => (lookupA m n).getD ""), m) := by
  induction ir with
  | nil => rfl
  | cons n ns ih =>
    have hn := h n (List.mem_cons_self _ _)
    cases hl : lookupA m n with
    | none => rw [hl] at hn; cases hn
    | some a =>
      unfold bindAll modGetPropName
      rw [hl]
      dsimp only
      rw [ih (fun x hx => h x (List.mem_cons_of_mem _ hx))]
      simp [hl]

theorem bindAll_aliases_final (m : List (String × String)) (ir : List String) :
    (bindAll m ir).1 =
      ir.map (fun n => (lookupA (bindAll m ir).2 n).getD "") := by
  induction ir generalizing m with
  | nil => rfl
  | cons n ns ih =>
    unfold bindAll modGetPropName
    cases hl : lookupA m n with
    | some a =>
      dsimp only
      rw [List.map_cons]
      obtain ⟨e, he⟩ := bindAll_extends m ns
      have h1 : lookupA (bindAll m ns).2 n = some a := by
        rw [he]; exact lookupA_append_some hl
      rw [ih m, h1]
      rfl
    | none =>
      dsimp only
      rw [List.map_cons]
      obtain ⟨e, he⟩ := bindAll_extends (m ++ [(n, "$cv" ++ toString m.length)]) ns
      have h1 : lookupA (bindAll (m ++ [(n, "$cv" ++ toString m.length)]) ns).2 n =
          some ("$cv" ++ toString m.length) := by
        rw [he, List.append_assoc, lookupA_append_none hl]
        simp [lookupA]
      rw [ih _, h1]
      rfl

end LwcSpec

namespace LwcSpec

/-- C5 (amended, positive half): two CONSECUTIVE compilations of the same
IR with the per-compilation counters reset produce identical output — the
module-level `usedProps` map reaches a fixed point after the first run. -/
theorem C5_recompile_stable (st : ModuleState) (ir : List String) :
    (compileFresh st ir).1 = (compileFresh (compileFresh st ir).2 ir).1 := by
  unfold compileFresh compileOnce
  dsimp only
  have hstable := bindAll_stable (bindAll st.usedProps ir).2 ir
    (fun n hn => bindAll_mem_isSome st.usedProps ir n hn)
  have halias := bindAll_aliases_final st.usedProps ir
  rw [hstable, halias]

/-- C5 counterexample: the same IR (a single read of property `y`),
compiled with fresh counters both times, produces different output
depending on whether a different IR (reading `x`) was compiled in between —
the module-level `usedProps` map of `scope.ts` is observable
cross-invocation mutable state: the second output destructures the stale
property `x` and shifts `y`'s alias. -/
theorem C5_cross_invocation_counterexample :
    (compileFresh ⟨0, []⟩ ["y"]).1 ≠
      (compileFresh (compileFresh ⟨0, []⟩ ["x"]).2 ["y"]).1 := by
  decide

end LwcSpec

namespace LwcSpec

/-- C6: the lowered conditional is a ternary over the single test
parameter; with modifier `true` the true branch is selected exactly on
truthy test values (`1` yes, `0` no); with `false` the test is negated;
with `strict-true` the true branch is selected exactly when the value is
identically the boolean literal `true`, so `1` selects the false branch. -/
theorem C6_conditional_truth_table (tv : JSVal) :
    (applyInlineIfLower "true").map (selectsTrueBranch tv) =
      .ok (truthy tv) ∧
    (applyInlineIfLower "false").map (selectsTrueBranch tv) =
      .ok (!truthy tv) ∧
    (applyInlineIfLower "strict-true").map (selectsTrueBranch tv) =
      .ok (jsStrictEqTrue tv) ∧
    truthy (.num 1) = true ∧ truthy (.num 0) = false ∧
    jsStrictEqTrue (.boolV true) = true ∧ jsStrictEqTrue (.num 1) = false ∧
    (jsStrictEqTrue tv = true ↔ tv = .boolV true) := by
  refine ⟨rfl, rfl, rfl, rfl, rfl, rfl, rfl, ?_⟩
  cases tv <;> simp [jsStrictEqTrue]

theorem applyInlineIfLower_err {m : String}
    (h : recognizedModifier m = false) :
    applyInlineIfLower m = .error (.unknownIfModifier m) := by
  simp only [recognizedModifier, Bool.or_eq_false_iff, decide_eq_false_iff_not] at h
  obtain ⟨⟨h1, h2⟩, h3⟩ := h
  simp [applyInlineIfLower, leftExpressionFor, Except.map, h1, h2, h3]

theorem applyInlineIfLower_ok {m : String}
    (h : recognizedModifier m = true) :
    ∃ e, applyInlineIfLower m = .ok e := by
  simp only [recognizedModifier, Bool.or_eq_true_iff, decide_eq_true_eq] at h
  rcases h with (h | h) | h <;> subst h <;> exact ⟨_, rfl⟩

theorem hasUnknownModifier_elem (ifm : Option String)
    (children : List MiniNode) :
    hasUnknownModifier (.elem ifm children) =
      (unknownIfDirective ifm || hasUnknownModifierList children) := by
  conv_lhs => unfold hasUnknownModifier

theorem hasUnknownModifierList_cons (n : MiniNode) (ns : List MiniNode) :
    hasUnknownModifierList (n :: ns) =
      (hasUnknownModifier n || hasUnknownModifierList ns) := by
  conv_lhs => unfold hasUnknownModifierList

theorem compileNode_elem (ifm : Option String) (children : List MiniNode) :
    compileNode (.elem ifm children) =
      (compileList children).bind fun _ => compileIfDirective ifm := by
  conv_lhs => unfold compileNode

theorem compileList_cons (n : MiniNode) (ns : List MiniNode) :
    compileList (n :: ns) =
      (compileNode n).bind fun _ => compileList ns := by
  conv_lhs => unfold compileList

mutual
theorem compileNode_ok_of_clean (n : MiniNode)
    (h : hasUnknownModifier n = false) : compileNode n = .ok () := by
  match n with
  | .text => rfl
  | .elem ifm children =>
    rw [hasUnknownModifier_elem, Bool.or_eq_false_iff] at h
    obtain ⟨h1, h2⟩ := h
    rw [compileNode_elem, compileList_ok_of_clean children h2]
    match ifm with
    | none => rfl
    | some m =>
      simp only [unknownIfDirective] at h1
      have h1' : recognizedModifier m = true := by
        revert h1
        cases recognizedModifier m <;> simp
      obtain ⟨e, he⟩ := applyInlineIfLower_ok h1' 
      show compileIfDirective (some m) = _
      rw [show compileIfDirective (some m) =
        (applyInlineIfLower m).bind (fun _ => Except.ok ()) from rfl, he]
      rfl

theorem compileList_ok_of_clean (ns : List MiniNode)
    (h : hasUnknownModifierList ns = false) : compileList ns = .ok () := by
  match ns with
  | [] => rfl
  | n :: rest =>
    rw [hasUnknownModifierList_cons, Bool.or_eq_false_iff] at h
    obtain ⟨h1, h2⟩ := h
    rw [compileList_cons, compileNode_ok_of_clean n h1]
    exact compileList_ok_of_clean rest h2
end

mutual
theorem compileNode_err_of_unknown (n : MiniNode)
    (h : hasUnknownModifier n = true) :
    ∃ m, recognizedModifier m = false ∧
      compileNode n = .error (.unknownIfModifier m) := by
  match n with
  | .text =>
    rw [show hasUnknownModifier .text = false from rfl] at h
    cases h
  | .elem ifm children =>
    rw [hasUnknownModifier_elem, Bool.or_eq_true_iff] at h
    by_cases h2 : hasUnknownModifierList children = true
    · obtain ⟨m, hm, herr⟩ := compileList_err_of_unknown children h2
      refine ⟨m, hm, ?_⟩
      rw [compileNode_elem, herr]
      rfl
    · rw [Bool.not_eq_true] at h2
      rcases h with h1 | h1
      · match ifm with
        | none => cases h1
        | some m =>
          simp only [unknownIfDirective] at h1
          rw [Bool.not_eq_true'] at h1
          refine ⟨m, h1, ?_⟩
          rw [compileNode_elem, compileList_ok_of_clean children h2]
          show compileIfDirective (some m) = _
          rw [show compileIfDirective (some m) =
            (applyInlineIfLower m).bind (fun _ => Except.ok ()) from rfl,
            applyInlineIfLower_err h1]
          rfl
      · rw [h2] at h1; cases h1

theorem compileList_err_of_unknown (ns : List MiniNode)
    (h : hasUnknownModifierList ns = true) :
    ∃ m, recognizedModifier m = false ∧
      compileList ns = .error (.unknownIfModifier m) := by
  match ns with
  | [] =>
    rw [show hasUnknownModifierList ([] : List MiniNode) = false from rfl] at h
    cases h
  | n :: rest =>
    rw [hasUnknownModifierList_cons, Bool.or_eq_true_iff] at h
    by_cases h1 : hasUnknownModifier n = true
    · obtain ⟨m, hm, herr⟩ := compileNode_err_of_unknown n h1
      refine ⟨m, hm, ?_⟩
      rw [compileList_cons, herr]
      rfl
    · rw [Bool.not_eq_true] at h1
      rcases h with hc | hc
      · rw [h1] at hc; cases hc
      · obtain ⟨m, hm, herr⟩ := compileList_err_of_unknown rest hc
        refine ⟨m, hm, ?_⟩
        rw [compileList_cons, compileNode_ok_of_clean n h1]
        exact herr
end

end LwcSpec

namespace LwcSpec

/-- C7: an unrecognized conditional modifier raises the fatal
`UNKNOWN_IF_MODIFIER` compiler error naming the offending modifier, the
compilation of any template containing such a directive ends in an error
(no partial output), and the three recognized modifiers lower without
error. -/
theorem C7_unknown_modifier_fatal (m : String) (node : MiniNode)
    (hm : recognizedModifier m = false)
    (hn : hasUnknownModifier node = true) :
    applyInlineIfLower m = .error (.unknownIfModifier m) ∧
    (∃ m', recognizedModifier m' = false ∧
      compileNode node = .error (.unknownIfModifier m')) ∧
    applyInlineIfLower "true" = .ok (.ternary .param) ∧
    applyInlineIfLower "false" = .ok (.ternary (.notE .param)) ∧
    applyInlineIfLower "strict-true" = .ok (.ternary (.strictTrueE .param)) :=
  ⟨applyInlineIfLower_err hm, compileNode_err_of_unknown node hn, rfl, rfl, rfl⟩

/-- Witness for C7 at the modifier string `truthy` on an element carrying
`if:truthy`. -/
theorem C7_unknown_modifier_fatal_witness :
    applyInlineIfLower "truthy" = .error (.unknownIfModifier "truthy") ∧
    (∃ m', recognizedModifier m' = false ∧
      compileNode (.elem (some "truthy") []) =
        .error (.unknownIfModifier m')) ∧
    applyInlineIfLower "true" = .ok (.ternary .param) ∧
    applyInlineIfLower "false" = .ok (.ternary (.notE .param)) ∧
    applyInlineIfLower "strict-true" = .ok (.ternary (.strictTrueE .param)) :=
  C7_unknown_modifier_fatal "truthy" (.elem (some "truthy") [])
    (by decide) (by decide)

theorem bumpInstances_cons (p : PropUsage) (ps : List PropUsage)
    (n : String) :
    bumpInstances (p :: ps) n =
      (if p.name = n then { p with instances := p.instances + 1 } else p) ::
        bumpInstances ps n := rfl

theorem findByName_bump (l : List PropUsage) (n : String) :
    findByName (bumpInstances l n) n =
      (findByName l n).map
        (fun p => { p with instances := p.instances + 1 }) := by
  induction l with
  | nil => rfl
  | cons p ps ih =>
    rw [bumpInstances_cons]
    by_cases hp : p.name = n
    · rw [if_pos hp]
      simp [findByName, hp]
    · rw [if_neg hp]
      simp [findByName, hp, ih]

theorem bumpInstances_triples (l : List PropUsage) (n : String) :
    (bumpInstances l n).map (fun p => (p.name, p.gen, p.cellId)) =
      l.map (fun p => (p.name, p.gen, p.cellId)) := by
  induction l with
  | nil => rfl
  | cons p ps ih =>
    rw [bumpInstances_cons]
    by_cases hp : p.name = n
    · rw [if_pos hp]
      simp [ih]
    · rw [if_neg hp]
      simp [ih]

theorem findByName_append_none {l : List PropUsage} {n : String}
    (p : PropUsage) (h : findByName l n = none) :
    findByName (l ++ [p]) n = if p.name = n then some p else none := by
  induction l with
  | nil => rfl
  | cons q qs ih =>
    by_cases hq : q.name = n
    · simp [findByName, hq] at h
    · simp [findByName, hq] at h ⊢
      exact ih h

theorem callRepeat_stable {st1 : ScopeBindState} {name : String}
    {c1 : Nat} {g1 : String}
    (hf : (findByName st1.usedProps name).map (fun q => (q.cellId, q.gen)) =
      some (c1, g1)) (k : Nat) :
    (∀ c ∈ (callRepeat st1 name k).1, c = c1) ∧
    (callRepeat st1 name k).2.usedProps.map
        (fun p => (p.name, p.gen, p.cellId)) =
      st1.usedProps.map (fun p => (p.name, p.gen, p.cellId)) ∧
    (findByName (callRepeat st1 name k).2.usedProps name).map
        (fun q => (q.cellId, q.gen)) = some (c1, g1) := by
  induction k generalizing st1 with
  | zero =>
    refine ⟨?_, rfl, hf⟩
    intro c hc
    cases hc
  | succ k ih =>
    cases hfind : findByName st1.usedProps name with
    | none => rw [hfind] at hf; cases hf
    | some p =>
      rw [hfind] at hf
      injection hf with hpc
      have hc1 : p.cellId = c1 := congrArg Prod.fst hpc
      have hg1 : p.gen = g1 := congrArg Prod.snd hpc
      have hstep : scopeGetPropName st1 name =
          (p.cellId,
            { st1 with usedProps := bumpInstances st1.usedProps name }) := by
        unfold scopeGetPropName
        rw [hfind]
      have hfind2 : (findByName (bumpInstances st1.usedProps name) name).map
          (fun q => (q.cellId, q.gen)) = some (c1, g1) := by
        rw [findByName_bump, hfind]
        simp [hc1, hg1]
      have hrec := @ih { st1 with usedProps := bumpInstances st1.usedProps name } hfind2
      have hcall : callRepeat st1 name (k + 1) =
          (p.cellId ::
            (callRepeat { st1 with usedProps := bumpInstances st1.usedProps name } name k).1,
            (callRepeat { st1 with usedProps := bumpInstances st1.usedProps name } name k).2) := by
        conv_lhs => unfold callRepeat
        rw [hstep]
      refine ⟨?_, ?_, ?_⟩
      · intro c hc
        rw [hcall] at hc
        rcases List.mem_cons.mp hc with rfl | hc'
        · exact hc1
        · exact hrec.1 c hc'
      · rw [hcall]
        dsimp only
        rw [hrec.2.1, bumpInstances_triples]
      · rw [hcall]
        dsimp only
        exact hrec.2.2

end LwcSpec

namespace LwcSpec

/-- C8: binding the same property name any number of times in one scope is
side-effect-stable — the first call fixes a usage record (one proxy cell id
and one generated alias); every later call returns that same cell id, the
record keeps its alias, and no further record is ever created (the
`(name, gen, cellId)` rows of `usedProps` are unchanged by repeat calls). -/
theorem C8_binding_stable (st : ScopeBindState) (name : String) (k : Nat) :
    ∃ c1 g1,
      (scopeGetPropName st name).1 = c1 ∧
      (findByName (scopeGetPropName st name).2.usedProps name).map
          (fun q => (q.cellId, q.gen)) = some (c1, g1) ∧
      (∀ c ∈ (callRepeat (scopeGetPropName st name).2 name k).1, c = c1) ∧
      (callRepeat (scopeGetPropName st name).2 name k).2.usedProps.map
          (fun p => (p.name, p.gen, p.cellId)) =
        (scopeGetPropName st name).2.usedProps.map
          (fun p => (p.name, p.gen, p.cellId)) ∧
      (findByName
          (callRepeat (scopeGetPropName st name).2 name k).2.usedProps
          name).map (fun q => (q.cellId, q.gen)) = some (c1, g1) := by
  cases hfind : findByName st.usedProps name with
  | some p =>
    have hstep : scopeGetPropName st name =
        (p.cellId,
          { st with usedProps := bumpInstances st.usedProps name }) := by
      unfold scopeGetPropName
      rw [hfind]
    have hafter : (findByName
        (scopeGetPropName st name).2.usedProps name).map
        (fun q => (q.cellId, q.gen)) = some (p.cellId, p.gen) := by
      rw [hstep]
      dsimp only
      rw [findByName_bump, hfind]
      rfl
    obtain ⟨hall, htrip, hfin⟩ := callRepeat_stable hafter k
    exact ⟨p.cellId, p.gen, by rw [hstep], hafter, hall, htrip, hfin⟩
  | none =>
    have hstep : scopeGetPropName st name =
        (st.nextCell,
          { st with
            usedProps := st.usedProps ++
              [⟨name, "$cv" ++ toString st.sid ++ "_" ++
                toString st.usedProps.length, st.nextCell, 1⟩],
            nextCell := st.nextCell + 1 }) := by
      unfold scopeGetPropName
      rw [hfind]
    have hafter : (findByName
        (scopeGetPropName st name).2.usedProps name).map
        (fun q => (q.cellId, q.gen)) =
        some (st.nextCell,
          "$cv" ++ toString st.sid ++ "_" ++ toString st.usedProps.length) := by
      rw [hstep]
      dsimp only
      rw [findByName_append_none _ hfind]
      rw [if_pos rfl]
      rfl
    obtain ⟨hall, htrip, hfin⟩ := callRepeat_stable hafter k
    exact ⟨st.nextCell,
      "$cv" ++ toString st.sid ++ "_" ++ toString st.usedProps.length,
      by rw [hstep], hafter, hall, htrip, hfin⟩

end LwcSpec

namespace LwcSpec

theorem lookupA_isSome_iff (m : List (String × String)) (n : String) :
    (lookupA m n).isSome ↔ n ∈ m.map (fun x => x.1) := by
  induction m with
  | nil => simp [lookupA]
  | cons kv rest ih =>
    cases kv with
    | mk k v =>
      by_cases hk : k = n
      · simp [lookupA, hk]
      · rw [show lookupA ((k, v) :: rest) n = lookupA rest n from by
          simp [lookupA, hk]]
        rw [List.map_cons, List.mem_cons, ih]
        constructor
        · exact Or.inr
        · rintro (rfl | h)
          · exact absurd rfl hk
          · exact h

theorem firstUsesAux_congr {s1 s2 : List String}
    (h : ∀ n, n ∈ s1 ↔ n ∈ s2) (ps : List RenderPrimitive) :
    firstUsesAux s1 ps = firstUsesAux s2 ps := by
  induction ps generalizing s1 s2 with
  | nil => rfl
  | cons p rest ih =>
    unfold firstUsesAux
    by_cases hp : primName p ∈ s1
    · rw [if_pos hp, if_pos ((h _).mp hp)]
      exact ih h
    · rw [if_neg hp, if_neg (fun hh => hp ((h _).mpr hh))]
      refine congrArg _ (ih ?_)
      intro n
      simp [h n]

theorem runEmits_firstUses (ps : List RenderPrimitive) :
    ∀ acc : List (String × String),
      runEmits acc ps = acc ++ firstUsesAux (acc.map (fun x => x.1)) ps := by
  induction ps with
  | nil => intro acc; simp [runEmits, firstUsesAux]
  | cons p rest ih =>
    intro acc
    show runEmits (renderApiCall acc p) rest = _
    unfold renderApiCall firstUsesAux
    by_cases hp : (lookupA acc (primName p)).isSome
    · rw [if_pos hp, ih acc,
        if_pos ((lookupA_isSome_iff acc (primName p)).mp hp)]
    · rw [if_neg hp,
        if_neg (fun hh => hp ((lookupA_isSome_iff acc (primName p)).mpr hh)),
        ih (acc ++ [(primName p, primAlias p)])]
      rw [List.append_assoc]
      refine congrArg _ ?_
      rw [List.singleton_append]
      refine congrArg _ (firstUsesAux_congr ?_ rest)
      intro n
      rw [List.map_append, List.mem_append, List.mem_cons]
      simp [or_comm]

theorem mem_firstUsesAux_keys (n : String) (ps : List RenderPrimitive) :
    ∀ seen : List String,
      (n ∈ (firstUsesAux seen ps).map (fun x => x.1) ↔
        (n ∉ seen ∧ ∃ p ∈ ps, primName p = n)) := by
  induction ps with
  | nil => intro seen; simp [firstUsesAux]
  | cons p rest ih =>
    intro seen
    unfold firstUsesAux
    by_cases hp : primName p ∈ seen
    · rw [if_pos hp, ih seen]
      constructor
      · rintro ⟨hns, q, hq, hqn⟩
        exact ⟨hns, q, List.mem_cons_of_mem _ hq, hqn⟩
      · rintro ⟨hns, q, hq, hqn⟩
        rcases List.mem_cons.mp hq with rfl | hq'
        · exact absurd (hqn ▸ hp) hns
        · exact ⟨hns, q, hq', hqn⟩
    · rw [if_neg hp]
      rw [List.map_cons, List.mem_cons, ih (primName p :: seen)]
      constructor
      · rintro (rfl | ⟨hns, q, hq, hqn⟩)
        · exact ⟨hp, p, List.mem_cons_self _ _, rfl⟩
        · rw [List.mem_cons] at hns
          push_neg at hns
          exact ⟨hns.2, q, List.mem_cons_of_mem _ hq, hqn⟩
      · rintro ⟨hns, q, hq, hqn⟩
        rcases List.mem_cons.mp hq with rfl | hq'
        · exact Or.inl hqn.symm
        · by_cases hnp : n = primName p
          · exact Or.inl hnp
          · refine Or.inr ⟨?_, q, hq', hqn⟩
            rw [List.mem_cons]
            push_neg
            exact ⟨hnp, hns⟩

/-- C9: the `usedApis` table after a tree walk is exactly the
`(name, alias)` rows of the primitives actually invoked, in first-use
order (`firstUses`), and a name is destructured iff some invoked
primitive has that name — a pure function of the invocation sequence, so
repeated compilations of the same IR from a fresh `CodeGen` give the
identical destructuring. -/
theorem C9_used_apis (ps : List RenderPrimitive) :
    runEmits [] ps = firstUses ps ∧
    (∀ n, (lookupA (runEmits [] ps) n).isSome ↔
      ∃ p ∈ ps, primName p = n) := by
  have h0 := runEmits_firstUses ps []
  rw [List.nil_append] at h0
  constructor
  · exact h0
  · intro n
    rw [h0, lookupA_isSome_iff]
    show n ∈ (firstUsesAux [] ps).map (fun x => x.1) ↔ _
    rw [mem_firstUsesAux_keys n ps []]
    simp

end LwcSpec
